import Mathlib

/-!
Verification development for the RAG banking-regulation repository.

The transport layer between the FastAPI backend and the React UI moves
streamed answer text through Server-Sent Events.  Because SSE framing is
newline-delimited, the backend (`generate_response_stream`) encodes literal
newlines with the sentinels `<<<BLANK_LINE>>>` and `<<<LINE_BREAK>>>` and the
UI (`handleSend` in `ChatInterface.tsx`) decodes them.  Both sides use
plain global string replacement (Python `str.replace`, JS `String.replace`
with a global literal pattern), i.e. leftmost, non-overlapping replacement of
every occurrence.  `replaceAll` below is that operation on `List Char`.
-/

/-- Leftmost non-overlapping replacement of every occurrence of the nonempty
pattern `p` by `r`, as performed by Python `str.replace(p, r)` and by
JavaScript `s.replace(/p/g, r)` for a metacharacter-free pattern `p`. -/
def replaceAll (p r : List Char) : List Char → List Char
  | [] => []
  | c :: rest =>
    if p <+: (c :: rest) then r ++ replaceAll p r (rest.drop (p.length - 1))
    else c :: replaceAll p r rest
termination_by s => s.length
decreasing_by
  · simp only [List.length_drop, List.length_cons]
    omega
  · simp only [List.length_cons]
    omega

theorem replaceAll_nil (p r : List Char) : replaceAll p r [] = [] := by
  simp [replaceAll]

theorem replaceAll_cons_pos (p r : List Char) (c : Char) (rest : List Char)
    (h : p <+: (c :: rest)) :
    replaceAll p r (c :: rest) = r ++ replaceAll p r (rest.drop (p.length - 1)) := by
  rw [replaceAll, if_pos h]

theorem replaceAll_cons_neg (p r : List Char) (c : Char) (rest : List Char)
    (h : ¬ p <+: (c :: rest)) :
    replaceAll p r (c :: rest) = c :: replaceAll p r rest := by
  rw [replaceAll, if_neg h]

/-- When the input starts with the pattern itself, one replacement is emitted
and scanning resumes after the matched occurrence. -/
theorem replaceAll_head_match (p r z : List Char) (hp : p ≠ []) :
    replaceAll p r (p ++ z) = r ++ replaceAll p r z := by
  obtain ⟨a, p2, rfl⟩ := List.exists_cons_of_ne_nil hp
  rw [List.cons_append, replaceAll_cons_pos]
  · have hdrop : (p2 ++ z).drop ((a :: p2).length - 1) = z := by
      simp only [List.length_cons, Nat.add_sub_cancel]
      exact List.drop_left p2 z
    rw [hdrop]
  · exact ⟨z, by simp⟩

/-- A pattern mismatching inside the concrete part `w` (at every offset) lets
the scan pass through `w` unchanged, whatever follows. -/
theorem replaceAll_append_pass (p r w z : List Char)
    (hw : ∀ k, k < w.length → ¬ p <+: (w.drop k ++ z)) :
    replaceAll p r (w ++ z) = w ++ replaceAll p r z := by
  induction w with
  | nil => simp
  | cons c w2 ih =>
    rw [List.cons_append, replaceAll_cons_neg]
    · rw [ih (fun k hk => by simpa using hw (k + 1) (by simpa using hk))]
      simp
    · simpa using hw 0 (by simp)

/-- If `p` disagrees with `w` within their common length, then `p` is not a
prefix of `w ++ z` for any `z`. -/
theorem not_prefix_of_append_mismatch (p w z : List Char)
    (h : p.take (min p.length w.length) ≠ w.take (min p.length w.length)) :
    ¬ p <+: (w ++ z) := by
  intro hp
  obtain ⟨t, ht⟩ := hp
  apply h
  have h1 : (p ++ t).take (min p.length w.length) = p.take (min p.length w.length) :=
    List.take_append_of_le_length (Nat.min_le_left _ _)
  have h2 : (w ++ z).take (min p.length w.length) = w.take (min p.length w.length) :=
    List.take_append_of_le_length (Nat.min_le_right _ _)
  rw [← h1, ht, h2]

/-! ### The two newline sentinels (C1)

Backend (`generate_response_stream`, part of the streaming architecture):
`encoded = normalized.replace('\n\n', '<<<BLANK_LINE>>>')` then
`encoded = encoded.replace('\n', '<<<LINE_BREAK>>>')`.
UI (`handleSend`):
`finalContent.replace(/<<<BLANK_LINE>>>/g, '\n\n')` then
`finalContent.replace(/<<<LINE_BREAK>>>/g, '\n')`. -/

def blankSentinel : List Char := "<<<BLANK_LINE>>>".toList

def lineSentinel : List Char := "<<<LINE_BREAK>>>".toList

/-- Server-side newline encoding performed by `generate_response_stream`. -/
def sseEncodeNewlines (s : List Char) : List Char :=
  replaceAll ['\n'] lineSentinel (replaceAll ['\n', '\n'] blankSentinel s)

/-- Client-side newline decoding performed by `handleSend`. -/
def chatDecodeNewlines (s : List Char) : List Char :=
  replaceAll lineSentinel ['\n'] (replaceAll blankSentinel ['\n', '\n'] s)

/-- Tokens of the greedy left-to-right newline scan: a blank line (`"\n\n"`),
a single newline, or an ordinary character. -/
inductive NlTok where
  | txt (c : Char)
  | nl1
  | nl2

/-- Greedy tokenisation of a string into `NlTok`s, mirroring the order in
which the leftmost-match replacement passes consume the input. -/
def toksOf : List Char → List NlTok
  | [] => []
  | '\n' :: '\n' :: r => .nl2 :: toksOf r
  | '\n' :: r => .nl1 :: toksOf r
  | c :: r => .txt c :: toksOf r

/-- Render tokens back to the original text. -/
def flatOrig : List NlTok → List Char
  | [] => []
  | .txt c :: r => c :: flatOrig r
  | .nl1 :: r => '\n' :: flatOrig r
  | .nl2 :: r => '\n' :: '\n' :: flatOrig r

/-- Render tokens as they appear after the first encoding pass
(`"\n\n"` already replaced by `blankSentinel`). -/
def flatEnc1 : List NlTok → List Char
  | [] => []
  | .txt c :: r => c :: flatEnc1 r
  | .nl1 :: r => '\n' :: flatEnc1 r
  | .nl2 :: r => blankSentinel ++ flatEnc1 r

/-- Render tokens as they appear after both encoding passes. -/
def flatEnc : List NlTok → List Char
  | [] => []
  | .txt c :: r => c :: flatEnc r
  | .nl1 :: r => lineSentinel ++ flatEnc r
  | .nl2 :: r => blankSentinel ++ flatEnc r

/-- Render tokens as they appear after the first decoding pass
(`blankSentinel` already replaced by `"\n\n"`, `lineSentinel` still present). -/
def flatDec1 : List NlTok → List Char
  | [] => []
  | .txt c :: r => c :: flatDec1 r
  | .nl1 :: r => lineSentinel ++ flatDec1 r
  | .nl2 :: r => '\n' :: '\n' :: flatDec1 r

/-- Text tokens produced by `toksOf` never hold a newline. -/
def wfToks (ts : List NlTok) : Prop := ∀ c, NlTok.txt c ∈ ts → c ≠ '\n'

theorem toksOf_wf (s : List Char) : wfToks (toksOf s) := by
  induction s using toksOf.induct with
  | case1 => intro c hc; simp [toksOf] at hc
  | case2 r ih =>
    intro c hc
    simp only [toksOf, List.mem_cons] at hc
    rcases hc with h | h
    · exact absurd h (by simp)
    · exact ih c h
  | case3 r hne ih =>
    intro c hc
    simp only [toksOf, List.mem_cons] at hc
    rcases hc with h | h
    · exact absurd h (by simp)
    · exact ih c h
  | case4 c r h1 h2 ih =>
    intro d hd
    simp only [toksOf, List.mem_cons] at hd
    rcases hd with h | h
    · cases h
      exact h2
    · exact ih d h

theorem flatOrig_toksOf (s : List Char) : flatOrig (toksOf s) = s := by
  induction s using toksOf.induct with
  | case1 => rfl
  | case2 r ih => simp [toksOf, flatOrig, ih]
  | case3 r hne ih => simp [toksOf, flatOrig, ih]
  | case4 c r h1 h2 ih => simp [toksOf, flatOrig, ih]

theorem blankSentinel_length : blankSentinel.length = 16 := by decide

theorem lineSentinel_length : lineSentinel.length = 16 := by decide

/-- Unfolding equation of `toksOf` for a newline not followed by a newline. -/
theorem toksOf_nl1_eq (r : List Char) (hne : ∀ r1, r = '\n' :: r1 → False) :
    toksOf ('\n' :: r) = .nl1 :: toksOf r := by
  rw [toksOf]
  exact hne

/-- Unfolding equation of `toksOf` for an ordinary character. -/
theorem toksOf_txt_eq (c : Char) (r : List Char) (h2 : ¬ c = '\n') :
    toksOf (c :: r) = .txt c :: toksOf r := by
  rw [toksOf]
  · exact fun _ hc _ => h2 hc
  · exact h2

/-- The first encoding pass (`.replace('\n\n', '<<<BLANK_LINE>>>')`) rewrites
the input token by token. -/
theorem encode_pass1_eq (s : List Char) :
    replaceAll ['\n', '\n'] blankSentinel s = flatEnc1 (toksOf s) := by
  induction s using toksOf.induct with
  | case1 => rw [replaceAll_nil]; rfl
  | case2 r ih =>
    have h : ('\n' :: '\n' :: r) = ['\n', '\n'] ++ r := by simp
    rw [toksOf, flatEnc1, h, replaceAll_head_match _ _ _ (by simp), ih]
  | case3 r hne ih =>
    have hnp : ¬ (['\n', '\n'] : List Char) <+: ('\n' :: r) := by
      intro hp
      rw [List.cons_prefix_cons] at hp
      obtain ⟨t, ht⟩ := hp.2
      exact hne t ht.symm
    rw [toksOf_nl1_eq r hne, flatEnc1, replaceAll_cons_neg _ _ _ _ hnp, ih]
  | case4 c r h1 h2 ih =>
    have hnp : ¬ (['\n', '\n'] : List Char) <+: (c :: r) := by
      intro hp
      rw [List.cons_prefix_cons] at hp
      exact h2 hp.1.symm
    rw [toksOf_txt_eq c r h2, flatEnc1, replaceAll_cons_neg _ _ _ _ hnp, ih]

/-- A single newline never matches anywhere inside `blankSentinel`. -/
theorem nl_no_match_in_blank : ∀ k, k < 16 →
    (['\n'] : List Char).take (min (['\n'] : List Char).length (blankSentinel.drop k).length) ≠
      (blankSentinel.drop k).take
        (min (['\n'] : List Char).length (blankSentinel.drop k).length) := by
  decide

/-- The second encoding pass (`.replace('\n', '<<<LINE_BREAK>>>')`) turns the
pass-1 rendering into the fully encoded rendering. -/
theorem encode_pass2_eq (ts : List NlTok) (h : wfToks ts) :
    replaceAll ['\n'] lineSentinel (flatEnc1 ts) = flatEnc ts := by
  induction ts with
  | nil => rw [flatEnc1, replaceAll_nil]; rfl
  | cons t r ih =>
    have hr : wfToks r := fun c hc => h c (List.mem_cons_of_mem _ hc)
    cases t with
    | nl2 =>
      rw [flatEnc1, flatEnc,
        replaceAll_append_pass _ _ _ _ (fun k hk => by
          exact not_prefix_of_append_mismatch _ _ _
            (nl_no_match_in_blank k (blankSentinel_length ▸ hk))),
        ih hr]
    | nl1 =>
      have h1 : ('\n' :: flatEnc1 r) = ['\n'] ++ flatEnc1 r := by simp
      rw [flatEnc1, flatEnc, h1, replaceAll_head_match _ _ _ (by simp), ih hr]
    | txt c =>
      have hc : c ≠ '\n' := h c (List.mem_cons_self _ _)
      have hnp : ¬ (['\n'] : List Char) <+: (c :: flatEnc1 r) := by
        intro hp
        rw [List.cons_prefix_cons] at hp
        exact hc hp.1.symm
      rw [flatEnc1, flatEnc, replaceAll_cons_neg _ _ _ _ hnp, ih hr]

/-- A proper suffix of `blankSentinel` disagrees with `blankSentinel` itself
within their common length. -/
theorem blank_sufx_no_match_blank : ∀ j, j < 16 → 1 ≤ j →
    (blankSentinel.drop j).take (min (blankSentinel.drop j).length blankSentinel.length) ≠
      blankSentinel.take (min (blankSentinel.drop j).length blankSentinel.length) := by
  decide

/-- A proper suffix of `blankSentinel` disagrees with `lineSentinel` within
their common length. -/
theorem blank_sufx_no_match_line : ∀ j, j < 16 → 1 ≤ j →
    (blankSentinel.drop j).take (min (blankSentinel.drop j).length lineSentinel.length) ≠
      lineSentinel.take (min (blankSentinel.drop j).length lineSentinel.length) := by
  decide

/-- `blankSentinel` disagrees with every suffix of `lineSentinel` within their
common length. -/
theorem blank_no_match_in_line : ∀ k, k < 16 →
    blankSentinel.take (min blankSentinel.length (lineSentinel.drop k).length) ≠
      (lineSentinel.drop k).take (min blankSentinel.length (lineSentinel.drop k).length) := by
  decide

/-- A proper suffix of `lineSentinel` disagrees with `"\n\n"` within their
common length. -/
theorem line_sufx_no_match_nl2 : ∀ j, j < 16 → 1 ≤ j →
    (lineSentinel.drop j).take (min (lineSentinel.drop j).length (['\n', '\n'] : List Char).length) ≠
      (['\n', '\n'] : List Char).take
        (min (lineSentinel.drop j).length (['\n', '\n'] : List Char).length) := by
  decide

/-- A proper suffix of `lineSentinel` disagrees with `lineSentinel` itself
within their common length. -/
theorem line_sufx_no_match_line : ∀ j, j < 16 → 1 ≤ j →
    (lineSentinel.drop j).take (min (lineSentinel.drop j).length lineSentinel.length) ≠
      lineSentinel.take (min (lineSentinel.drop j).length lineSentinel.length) := by
  decide

/-- `lineSentinel` disagrees with every suffix of `"\n\n"` within their common
length. -/
theorem line_no_match_in_nl2 : ∀ k, k < 2 →
    lineSentinel.take (min lineSentinel.length ((['\n', '\n'] : List Char).drop k).length) ≠
      ((['\n', '\n'] : List Char).drop k).take
        (min lineSentinel.length ((['\n', '\n'] : List Char).drop k).length) := by
  decide

/-- If a proper suffix of `blankSentinel` is a prefix of an encoded rendering,
it consists purely of text characters, hence is a prefix of the original
rendering. -/
theorem blank_sufx_transfer (ts : List NlTok) : ∀ j, 1 ≤ j → j < 16 →
    blankSentinel.drop j <+: flatEnc ts → blankSentinel.drop j <+: flatOrig ts := by
  induction ts with
  | nil =>
    intro j hj1 hj16 hp
    rw [flatEnc] at hp
    have h0 := List.prefix_nil.mp hp
    have hlen : (blankSentinel.drop j).length = 16 - j := by
      rw [List.length_drop, blankSentinel_length]
    rw [h0] at hlen
    simp at hlen
    omega
  | cons t r ih =>
    intro j hj1 hj16 hp
    cases t with
    | nl2 =>
      rw [flatEnc] at hp
      exact absurd hp (not_prefix_of_append_mismatch _ _ _
        (blank_sufx_no_match_blank j hj16 hj1))
    | nl1 =>
      rw [flatEnc] at hp
      exact absurd hp (not_prefix_of_append_mismatch _ _ _
        (blank_sufx_no_match_line j hj16 hj1))
    | txt c =>
      rw [flatEnc] at hp
      have hlt : j < blankSentinel.length := by rw [blankSentinel_length]; omega
      rw [List.drop_eq_getElem_cons hlt, List.cons_prefix_cons] at hp
      obtain ⟨hc, hp2⟩ := hp
      rw [flatOrig, List.drop_eq_getElem_cons hlt, List.cons_prefix_cons]
      refine ⟨hc, ?_⟩
      by_cases hj15 : j + 1 < 16
      · exact ih (j + 1) (by omega) hj15 hp2
      · have hj : j = 15 := by omega
        subst hj
        have h16 : blankSentinel.drop (15 + 1) = [] := by decide
        rw [h16]
        exact List.nil_prefix

/-- If a proper suffix of `lineSentinel` is a prefix of a pass-1-decoded
rendering, it consists purely of text characters, hence is a prefix of the
original rendering. -/
theorem line_sufx_transfer (ts : List NlTok) : ∀ j, 1 ≤ j → j < 16 →
    lineSentinel.drop j <+: flatDec1 ts → lineSentinel.drop j <+: flatOrig ts := by
  induction ts with
  | nil =>
    intro j hj1 hj16 hp
    rw [flatDec1] at hp
    have h0 := List.prefix_nil.mp hp
    have hlen : (lineSentinel.drop j).length = 16 - j := by
      rw [List.length_drop, lineSentinel_length]
    rw [h0] at hlen
    simp at hlen
    omega
  | cons t r ih =>
    intro j hj1 hj16 hp
    cases t with
    | nl2 =>
      rw [flatDec1] at hp
      have hform : ('\n' :: '\n' :: flatDec1 r) = ['\n', '\n'] ++ flatDec1 r := rfl
      rw [hform] at hp
      exact absurd hp (not_prefix_of_append_mismatch _ _ _
        (line_sufx_no_match_nl2 j hj16 hj1))
    | nl1 =>
      rw [flatDec1] at hp
      exact absurd hp (not_prefix_of_append_mismatch _ _ _
        (line_sufx_no_match_line j hj16 hj1))
    | txt c =>
      rw [flatDec1] at hp
      have hlt : j < lineSentinel.length := by rw [lineSentinel_length]; omega
      rw [List.drop_eq_getElem_cons hlt, List.cons_prefix_cons] at hp
      obtain ⟨hc, hp2⟩ := hp
      rw [flatOrig, List.drop_eq_getElem_cons hlt, List.cons_prefix_cons]
      refine ⟨hc, ?_⟩
      by_cases hj15 : j + 1 < 16
      · exact ih (j + 1) (by omega) hj15 hp2
      · have hj : j = 15 := by omega
        subst hj
        have h16 : lineSentinel.drop (15 + 1) = [] := by decide
        rw [h16]
        exact List.nil_prefix

/-- The first decoding pass (`.replace(/<<<BLANK_LINE>>>/g, '\n\n')`)
recovers exactly the blank lines, provided the original text did not itself
contain `<<<BLANK_LINE>>>`. -/
theorem decode_pass1_eq (ts : List NlTok) (hB : ¬ blankSentinel <:+: flatOrig ts) :
    replaceAll blankSentinel ['\n', '\n'] (flatEnc ts) = flatDec1 ts := by
  induction ts with
  | nil => rw [flatEnc, replaceAll_nil]; rfl
  | cons t r ih =>
    have hsuf : flatOrig r <:+ flatOrig (t :: r) := by
      cases t with
      | txt c => rw [flatOrig]; exact List.suffix_cons _ _
      | nl1 => rw [flatOrig]; exact List.suffix_cons _ _
      | nl2 => rw [flatOrig]; exact (List.suffix_cons _ _).trans (List.suffix_cons _ _)
    have hBr : ¬ blankSentinel <:+: flatOrig r := fun hi => hB (hi.trans hsuf.isInfix)
    cases t with
    | nl2 =>
      rw [flatEnc, flatDec1, replaceAll_head_match _ _ _ (by decide), ih hBr]
      rfl
    | nl1 =>
      rw [flatEnc, flatDec1,
        replaceAll_append_pass _ _ _ _ (fun k hk => by
          exact not_prefix_of_append_mismatch _ _ _
            (blank_no_match_in_line k (lineSentinel_length ▸ hk))),
        ih hBr]
    | txt c =>
      have hnp : ¬ blankSentinel <+: (c :: flatEnc r) := by
        intro hp
        have hBcons : blankSentinel = '<' :: blankSentinel.drop 1 := by decide
        rw [hBcons, List.cons_prefix_cons] at hp
        obtain ⟨hc, hp2⟩ := hp
        have htr := blank_sufx_transfer r 1 (by omega) (by omega) hp2
        apply hB
        apply List.IsPrefix.isInfix
        rw [flatOrig, hBcons, List.cons_prefix_cons]
        exact ⟨hc, htr⟩
      rw [flatEnc, flatDec1, replaceAll_cons_neg _ _ _ _ hnp, ih hBr]

/-- The second decoding pass (`.replace(/<<<LINE_BREAK>>>/g, '\n')`) recovers
exactly the single newlines, provided the original text did not itself contain
`<<<LINE_BREAK>>>`. -/
theorem decode_pass2_eq (ts : List NlTok) (hL : ¬ lineSentinel <:+: flatOrig ts) :
    replaceAll lineSentinel ['\n'] (flatDec1 ts) = flatOrig ts := by
  induction ts with
  | nil => rw [flatDec1, replaceAll_nil]; rfl
  | cons t r ih =>
    have hsuf : flatOrig r <:+ flatOrig (t :: r) := by
      cases t with
      | txt c => rw [flatOrig]; exact List.suffix_cons _ _
      | nl1 => rw [flatOrig]; exact List.suffix_cons _ _
      | nl2 => rw [flatOrig]; exact (List.suffix_cons _ _).trans (List.suffix_cons _ _)
    have hLr : ¬ lineSentinel <:+: flatOrig r := fun hi => hL (hi.trans hsuf.isInfix)
    cases t with
    | nl2 =>
      have hform : flatDec1 (.nl2 :: r) = ['\n', '\n'] ++ flatDec1 r := rfl
      rw [hform, flatOrig,
        replaceAll_append_pass _ _ _ _ (fun k hk => by
          exact not_prefix_of_append_mismatch _ _ _
            (line_no_match_in_nl2 k (by simpa using hk))),
        ih hLr]
      rfl
    | nl1 =>
      rw [flatDec1, flatOrig, replaceAll_head_match _ _ _ (by decide), ih hLr]
      rfl
    | txt c =>
      have hnp : ¬ lineSentinel <+: (c :: flatDec1 r) := by
        intro hp
        have hLcons : lineSentinel = '<' :: lineSentinel.drop 1 := by decide
        rw [hLcons, List.cons_prefix_cons] at hp
        obtain ⟨hc, hp2⟩ := hp
        have htr := line_sufx_transfer r 1 (by omega) (by omega) hp2
        apply hL
        apply List.IsPrefix.isInfix
        rw [flatOrig, hLcons, List.cons_prefix_cons]
        exact ⟨hc, htr⟩
      rw [flatDec1, flatOrig, replaceAll_cons_neg _ _ _ _ hnp, ih hLr]

/-- C1.  Newline-sentinel round trip: for every answer text containing neither
`<<<BLANK_LINE>>>` nor `<<<LINE_BREAK>>>`, the server-side encoding of
`generate_response_stream` (replace every `"\n\n"`, then every remaining
`"\n"`) followed by the client-side decoding in `handleSend` (replace every
`<<<BLANK_LINE>>>` with `"\n\n"`, then every `<<<LINE_BREAK>>>` with `"\n"`)
restores the original text exactly. -/
theorem sse_newline_roundtrip (s : List Char)
    (hB : ¬ blankSentinel <:+: s) (hL : ¬ lineSentinel <:+: s) :
    chatDecodeNewlines (sseEncodeNewlines s) = s := by
  have henc : sseEncodeNewlines s = flatEnc (toksOf s) := by
    rw [sseEncodeNewlines, encode_pass1_eq, encode_pass2_eq _ (toksOf_wf s)]
  rw [henc, chatDecodeNewlines,
    decode_pass1_eq _ (by rw [flatOrig_toksOf]; exact hB),
    decode_pass2_eq _ (by rw [flatOrig_toksOf]; exact hL),
    flatOrig_toksOf]

/-- Witness for C1 at the concrete text `"Art. 1 :\n\nAlinea<\n>fin"`. -/
theorem sse_newline_roundtrip_witness :
    (¬ blankSentinel <:+: "Art. 1 :\n\nAlinea<\n>fin".toList) ∧
      (¬ lineSentinel <:+: "Art. 1 :\n\nAlinea<\n>fin".toList) ∧
      chatDecodeNewlines (sseEncodeNewlines "Art. 1 :\n\nAlinea<\n>fin".toList) =
        "Art. 1 :\n\nAlinea<\n>fin".toList :=
  ⟨by decide, by decide, sse_newline_roundtrip _ (by decide) (by decide)⟩

/-! ### A model of the values produced by `JSON.parse` (used by the UI)

`streamChatMessage` and `handleSend` both attempt `JSON.parse` on incoming
payloads to recognise structured `citations` / `metrics` / `usage_info`
events.  The embedding below implements the JSON grammar on `List Char`;
parse failure (`none`) models a thrown `SyntaxError`. -/

inductive Json where
  | null
  | boolean (b : Bool)
  | num (lexeme : List Char)
  | str (s : List Char)
  | arr (elems : List Json)
  | obj (members : List (List Char × Json))

/-- JSON insignificant whitespace (RFC 8259). -/
def jsonWs (c : Char) : Bool := c = ' ' || c = '\t' || c = '\n' || c = '\r'

def skipWs (s : List Char) : List Char := s.dropWhile jsonWs

def hexVal (c : Char) : Option Nat :=
  if c.isDigit then some (c.toNat - '0'.toNat)
  else if 'a' ≤ c ∧ c ≤ 'f' then some (c.toNat - 'a'.toNat + 10)
  else if 'A' ≤ c ∧ c ≤ 'F' then some (c.toNat - 'A'.toNat + 10)
  else none

/-- Parse the body of a JSON string after its opening quote; returns the
decoded content and the remainder after the closing quote. -/
def parseStrBody : List Char → Option (List Char × List Char)
  | [] => none
  | '"' :: r => some ([], r)
  | '\\' :: esc =>
    match esc with
    | '"' :: r => (fun p => ('"' :: p.1, p.2)) <$> parseStrBody r
    | '\\' :: r => (fun p => ('\\' :: p.1, p.2)) <$> parseStrBody r
    | '/' :: r => (fun p => ('/' :: p.1, p.2)) <$> parseStrBody r
    | 'b' :: r => (fun p => ('\x08' :: p.1, p.2)) <$> parseStrBody r
    | 'f' :: r => (fun p => ('\x0c' :: p.1, p.2)) <$> parseStrBody r
    | 'n' :: r => (fun p => ('\n' :: p.1, p.2)) <$> parseStrBody r
    | 'r' :: r => (fun p => ('\r' :: p.1, p.2)) <$> parseStrBody r
    | 't' :: r => (fun p => ('\t' :: p.1, p.2)) <$> parseStrBody r
    | 'u' :: h1 :: h2 :: h3 :: h4 :: r => do
      let a ← hexVal h1
      let b ← hexVal h2
      let c ← hexVal h3
      let d ← hexVal h4
      (fun p => (Char.ofNat (((a * 16 + b) * 16 + c) * 16 + d) :: p.1, p.2)) <$>
        parseStrBody r
    | _ => none
  | c :: r =>
    if c.toNat < 32 then none
    else (fun p => (c :: p.1, p.2)) <$> parseStrBody r

def digitSpan (s : List Char) : List Char × List Char := s.span Char.isDigit

/-- Optional fraction part `.digits` of a JSON number. -/
def parseFracPart : List Char → Option (List Char × List Char)
  | '.' :: r =>
    let (ds, r2) := digitSpan r
    if ds = [] then none else some ('.' :: ds, r2)
  | s => some ([], s)

/-- Optional exponent part `[eE][+-]?digits` of a JSON number. -/
def parseExpPart (s : List Char) : Option (List Char × List Char) :=
  match s with
  | c :: r =>
    if c = 'e' ∨ c = 'E' then
      let (sgn, r1) : List Char × List Char :=
        match r with
        | '+' :: r2 => (['+'], r2)
        | '-' :: r2 => (['-'], r2)
        | _ => ([], r)
      let (ds, r2) := digitSpan r1
      if ds = [] then none else some (c :: (sgn ++ ds), r2)
    else some ([], s)
  | [] => some ([], [])

/-- Parse a JSON number; returns its lexeme and the remainder. -/
def parseNum (s : List Char) : Option (List Char × List Char) :=
  let (neg, s1) : List Char × List Char :=
    match s with
    | '-' :: r => (['-'], r)
    | _ => ([], s)
  match s1 with
  | c :: r =>
    if c = '0' then do
      let (fr, r1) ← parseFracPart r
      let (ex, r2) ← parseExpPart r1
      some (neg ++ [c] ++ fr ++ ex, r2)
    else if c.isDigit then
      let (ds, r0) := digitSpan r
      do
        let (fr, r1) ← parseFracPart r0
        let (ex, r2) ← parseExpPart r1
        some (neg ++ (c :: ds) ++ fr ++ ex, r2)
    else none
  | [] => none

mutual

/-- Fuel-indexed JSON value parser. -/
def parseVal : Nat → List Char → Option (Json × List Char)
  | 0, _ => none
  | f + 1, s =>
    match skipWs s with
    | 'n' :: 'u' :: 'l' :: 'l' :: r => some (.null, r)
    | 't' :: 'r' :: 'u' :: 'e' :: r => some (.boolean true, r)
    | 'f' :: 'a' :: 'l' :: 's' :: 'e' :: r => some (.boolean false, r)
    | '"' :: r => (fun p => (Json.str p.1, p.2)) <$> parseStrBody r
    | '[' :: r =>
      (match skipWs r with
       | ']' :: r2 => some (.arr [], r2)
       | _ => (fun p => (Json.arr p.1, p.2)) <$> parseArrItems f r)
    | '\x7b' :: r =>
      (match skipWs r with
       | '\x7d' :: r2 => some (.obj [], r2)
       | _ => (fun p => (Json.obj p.1, p.2)) <$> parseObjItems f r)
    | s2 => (fun p => (Json.num p.1, p.2)) <$> parseNum s2

/-- Comma-separated array elements up to the closing bracket. -/
def parseArrItems : Nat → List Char → Option (List Json × List Char)
  | 0, _ => none
  | f + 1, s => do
    let (v, r) ← parseVal f s
    match skipWs r with
    | ',' :: r2 => (fun p => (v :: p.1, p.2)) <$> parseArrItems f r2
    | ']' :: r2 => some ([v], r2)
    | _ => none

/-- Comma-separated object members up to the closing brace. -/
def parseObjItems : Nat → List Char → Option (List (List Char × Json) × List Char)
  | 0, _ => none
  | f + 1, s =>
    match skipWs s with
    | '"' :: r => do
      let (k, r1) ← parseStrBody r
      match skipWs r1 with
      | ':' :: r2 => do
        let (v, r3) ← parseVal f r2
        match skipWs r3 with
        | ',' :: r4 => (fun p => ((k, v) :: p.1, p.2)) <$> parseObjItems f r4
        | '\x7d' :: r4 => some ([(k, v)], r4)
        | _ => none
      | _ => none
    | _ => none

end

/-- The model of `JSON.parse`: parse one value, require only trailing
whitespace; `none` models a thrown `SyntaxError`. -/
def jsonParse (s : List Char) : Option Json :=
  match parseVal (2 * s.length + 2) s with
  | some (v, rest) => if skipWs rest = [] then some v else none
  | none => none

/-- Property access `obj[k]` on a parse result: for duplicate keys,
`JSON.parse` keeps the last occurrence. -/
def lookupLast (ms : List (List Char × Json)) (k : List Char) : Option Json :=
  match ms with
  | [] => none
  | (k2, v) :: r =>
    match lookupLast r k with
    | some v2 => some v2
    | none => if k2 = k then some v else none

def getField (j : Json) (k : List Char) : Option Json :=
  match j with
  | .obj ms => lookupLast ms k
  | _ => none

/-- Whether the digits of a JSON number lexeme are all zero (its value is 0). -/
def isZeroLex (lex : List Char) : Bool :=
  ((lex.takeWhile (fun c => ¬ (c = 'e' ∨ c = 'E'))).filter Char.isDigit).all (· = '0')

/-- JavaScript truthiness of a `JSON.parse` result. -/
def jsTruthy : Json → Bool
  | .null => false
  | .boolean b => b
  | .num lex => ¬ isZeroLex lex
  | .str s => ¬ s.isEmpty
  | .arr _ => true
  | .obj _ => true

mutual

/-- JavaScript `String(x)` on a `JSON.parse` result (numbers are rendered by
their lexeme in this model). -/
def jsToStr : Json → List Char
  | .null => "null".toList
  | .boolean b => if b then "true".toList else "false".toList
  | .num lex => lex
  | .str s => s
  | .arr es => jsArrToStr es
  | .obj _ => "[object Object]".toList

def jsArrToStr : List Json → List Char
  | [] => []
  | [j] => jsToStr j
  | j :: r => jsToStr j ++ (',' :: jsArrToStr r)

end

/-! ### The SSE chunk consumer of `streamChatMessage` (src/services/api.ts)

The generator keeps a `buffer`, appends each decoded network chunk, and
processes every complete line.  A line is handled as in the source:
skip blank lines, take `data: ` lines, strip trailing CR/LF from the payload,
return on `[DONE]`, yield recognised JSON events trimmed, and yield any other
nonblank payload verbatim.  The final buffer (stream ended without a trailing
newline) goes through the separate `done`-branch handling. -/

/-- JavaScript `String.prototype.trim` whitespace (the common subset). -/
def jsWsChar (c : Char) : Bool :=
  c = ' ' || c = '\t' || c = '\n' || c = '\r' || c = '\x0b' || c = '\x0c' || c = '\xa0'

/-- `s.trim()`. -/
def jsTrim (s : List Char) : List Char :=
  ((s.dropWhile jsWsChar).reverse.dropWhile jsWsChar).reverse

/-- `data.replace(/[\r\n]+$/, '')`: strip trailing carriage returns and
newlines only. -/
def stripTrailingNl (s : List Char) : List Char :=
  (s.reverse.dropWhile (fun c => c = '\r' || c = '\n')).reverse

/-- Whether `JSON.parse(s)` succeeds with `parsed.type` equal to
`'citations'`, `'metrics'` or `'usage_info'` (the structured-event test in
`streamChatMessage`). -/
def jsonTypedEvent (s : List Char) : Bool :=
  match jsonParse s with
  | some j =>
    match getField j "type".toList with
    | some (.str t) =>
      t = "citations".toList || t = "metrics".toList || t = "usage_info".toList
    | _ => false
  | none => false

/-- Outcome of processing one complete line in the main loop. -/
inductive LineRes where
  | skip
  | yld (payload : List Char)
  | done

/-- The main-loop line handler of `streamChatMessage`. -/
def handleLine (line : List Char) : LineRes :=
  if jsTrim line = [] then .skip
  else if "data: ".toList.isPrefixOf line then
    let d := stripTrailingNl (line.drop 6)
    if jsTrim d = "[DONE]".toList then .done
    else if jsonTypedEvent (jsTrim d) then .yld (jsTrim d)
    else if jsTrim d ≠ [] then .yld d
    else .skip
  else .skip

/-- Process all complete lines of a text: `acc` holds the current partial
line reversed; returns the yielded payloads, the leftover partial line, and
whether `[DONE]` returned out of the generator. -/
def consume (acc : List Char) : List Char → List (List Char) × List Char × Bool
  | [] => ([], acc.reverse, false)
  | c :: r =>
    if c = '\n' then
      match handleLine acc.reverse with
      | .done => ([], [], true)
      | .yld s => (s :: (consume [] r).1, (consume [] r).2.1, (consume [] r).2.2)
      | .skip => consume [] r
    else consume (c :: acc) r

/-- Feed the network chunks one by one through the buffer, as the
`while (true) { reader.read() ... }` loop does. -/
def runChunks : List Char → List (List Char) → List (List Char) × List Char × Bool
  | buf, [] => ([], buf, false)
  | buf, ch :: rest =>
    let (ys, b2, d) := consume [] (buf ++ ch)
    if d then (ys, b2, true)
    else
      let (ys2, b3, d2) := runChunks b2 rest
      (ys ++ ys2, b3, d2)

/-- `buffer.split('\n')`. -/
def splitNl : List Char → List (List Char)
  | [] => [[]]
  | c :: r =>
    if c = '\n' then [] :: splitNl r
    else
      match splitNl r with
      | [] => [[c]]
      | l :: ls => (c :: l) :: ls

/-- The `done`-branch handling of the remaining buffer: note it yields the
payload without stripping trailing CR and without the JSON-event test. -/
def flushLines : List (List Char) → List (List Char)
  | [] => []
  | l :: ls =>
    if jsTrim l = [] then flushLines ls
    else if "data: ".toList.isPrefixOf l then
      let d := l.drop 6
      if jsTrim d ≠ [] ∧ jsTrim d ≠ "[DONE]".toList then d :: flushLines ls
      else flushLines ls
    else if jsTrim l = "[DONE]".toList then []
    else flushLines ls

def flushBuffer (buf : List Char) : List (List Char) :=
  if jsTrim buf = [] then [] else flushLines (splitNl buf)

/-- All values yielded by `streamChatMessage` for a given sequence of network
chunks. -/
def streamChatYields (chunks : List (List Char)) : List (List Char) :=
  let (ys, b, d) := runChunks [] chunks
  if d then ys else ys ++ flushBuffer b

/-- Once `[DONE]` is processed, later network chunks are never read. -/
theorem runChunks_append_of_done (cs : List (List Char)) :
    ∀ (b : List Char) (extra : List (List Char)), (runChunks b cs).2.2 = true →
      runChunks b (cs ++ extra) = runChunks b cs := by
  induction cs with
  | nil =>
    intro b extra h
    simp [runChunks] at h
  | cons ch rest ih =>
    intro b extra h
    simp only [List.cons_append, runChunks] at h ⊢
    rcases hcon : consume [] (b ++ ch) with ⟨ys, b2, d⟩
    rw [hcon] at h
    cases d with
    | true => simp
    | false =>
      simp only [Prod.snd, if_neg (by simp : ¬ ((ys, b2, false).2.2 = true))] at h ⊢
      rcases hrec : runChunks b2 rest with ⟨ys2, b3, d2⟩
      rw [hrec] at h
      simp only at h
      have hih := ih b2 extra (by rw [hrec]; exact h)
      simp only [List.append_eq]
      rw [hih, hrec]

/-- C2.  Terminal `[DONE]` closes the stream: once a `data: ` line whose
payload trims to `[DONE]` has been processed (the generator's return flag is
set), the generator yields nothing further, regardless of any bytes that
follow. -/
theorem done_closes_stream (cs extra : List (List Char))
    (h : (runChunks [] cs).2.2 = true) :
    streamChatYields (cs ++ extra) = streamChatYields cs := by
  unfold streamChatYields
  rw [runChunks_append_of_done cs [] extra h]

/-- Witness for C2: a stream ending in `data: [DONE]` ignores a later chunk. -/
theorem done_closes_stream_witness :
    ((runChunks [] ["data: ok\ndata: [DONE]\n".toList]).2.2 = true) ∧
      streamChatYields (["data: ok\ndata: [DONE]\n".toList] ++ ["data: late\n".toList]) =
        streamChatYields ["data: ok\ndata: [DONE]\n".toList] :=
  ⟨by decide, done_closes_stream _ _ (by decide)⟩

/-- C3 counterexample.  For the single-chunk body
`"data:  {\"type\": \"citations\", \"data\": []}\n"` the payload (everything
after the 6-character `data: ` prefix) is `" {...}"` with a leading space, but
`streamChatMessage` yields the *trimmed* JSON text: recognised
citations/metrics/usage_info events are yielded via `yield data.trim()`, so
the leading space is not preserved as the claim requires. -/
theorem sse_payload_trim_counterexample :
    streamChatYields
        ["data:  \x7b\"type\": \"citations\", \"data\": []\x7d\n".toList] =
      ["\x7b\"type\": \"citations\", \"data\": []\x7d".toList] ∧
    (" \x7b\"type\": \"citations\", \"data\": []\x7d".toList ≠
      "\x7b\"type\": \"citations\", \"data\": []\x7d".toList) := by
  constructor
  · decide
  · decide

/-- One SSE line of a well-formed response body: an event line
`data: <payload>\n` or a blank separator line `\n`. -/
inductive SseUnit where
  | dataLine (p : List Char)
  | blankLine

def renderUnit : SseUnit → List Char
  | .dataLine p => "data: ".toList ++ p ++ ['\n']
  | .blankLine => ['\n']

def renderBody : List SseUnit → List Char
  | [] => []
  | u :: r => renderUnit u ++ renderBody r

/-- A payload must not itself contain the line delimiter. -/
def unitOk : SseUnit → Bool
  | .dataLine p => p.all (fun c => c != '\n')
  | .blankLine => true

def wfUnits (us : List SseUnit) : Prop := ∀ u ∈ us, unitOk u = true

/-- The yields the source produces for a well-formed body, payload by payload:
blank lines yield nothing; a payload trimming to `[DONE]` stops everything;
a recognised JSON event payload is yielded trimmed; any other payload with
nonblank trim is yielded with only trailing CR/LF stripped. -/
def expectedYields : List SseUnit → List (List Char)
  | [] => []
  | .blankLine :: r => expectedYields r
  | .dataLine p :: r =>
    if jsTrim (stripTrailingNl p) = "[DONE]".toList then []
    else if jsonTypedEvent (jsTrim (stripTrailingNl p)) then
      jsTrim (stripTrailingNl p) :: expectedYields r
    else if jsTrim (stripTrailingNl p) ≠ [] then stripTrailingNl p :: expectedYields r
    else expectedYields r

/-- Whether a body contains a terminating `[DONE]` payload. -/
def hasDone : List SseUnit → Bool
  | [] => false
  | .blankLine :: r => hasDone r
  | .dataLine p :: r =>
    if jsTrim (stripTrailingNl p) = "[DONE]".toList then true else hasDone r

def concatChunks : List (List Char) → List Char
  | [] => []
  | c :: r => c ++ concatChunks r

/-- Scanning `w ++ s` from accumulator `acc` first banks the newline-free
text `w`. -/
theorem consume_acc_eq (w : List Char) :
    ∀ (acc s : List Char), (∀ c ∈ w, c ≠ '\n') →
      consume acc (w ++ s) = consume (w.reverse ++ acc) s := by
  induction w with
  | nil => intro acc s _; simp
  | cons c w2 ih =>
    intro acc s hw
    have hc : c ≠ '\n' := hw c (List.mem_cons_self _ _)
    rw [List.cons_append, consume, if_neg hc,
      ih (c :: acc) s (fun x hx => hw x (List.mem_cons_of_mem _ hx))]
    simp

theorem consume_nil (acc : List Char) : consume acc [] = ([], acc.reverse, false) := by
  rw [consume]

theorem consume_cons_ne (acc t : List Char) (c : Char) (hc : ¬ c = '\n') :
    consume acc (c :: t) = consume (c :: acc) t := by
  rw [consume, if_neg hc]

theorem consume_nl_skip (acc t : List Char) (hl : handleLine acc.reverse = .skip) :
    consume acc ('\n' :: t) = consume [] t := by
  rw [consume, if_pos rfl, hl]

theorem consume_nl_yld (acc t s : List Char) (hl : handleLine acc.reverse = .yld s) :
    consume acc ('\n' :: t) =
      (s :: (consume [] t).1, (consume [] t).2.1, (consume [] t).2.2) := by
  rw [consume, if_pos rfl, hl]

theorem consume_nl_done (acc t : List Char) (hl : handleLine acc.reverse = .done) :
    consume acc ('\n' :: t) = ([], [], true) := by
  rw [consume, if_pos rfl, hl]

/-- If the scan of `xs` hit `[DONE]`, appending more bytes changes nothing. -/
theorem consume_append_done (xs : List Char) :
    ∀ (acc ys : List Char), (consume acc xs).2.2 = true →
      consume acc (xs ++ ys) = consume acc xs := by
  induction xs with
  | nil => intro acc ys h; rw [consume_nil] at h; simp at h
  | cons c xr ih =>
    intro acc ys h
    rw [List.cons_append]
    by_cases hc : c = '\n'
    · subst hc
      rcases hl : handleLine acc.reverse with _ | s | _
      · rw [consume_nl_skip acc (xr ++ ys) hl, consume_nl_skip acc xr hl]
        rw [consume_nl_skip acc xr hl] at h
        exact ih [] ys h
      · rw [consume_nl_yld acc (xr ++ ys) s hl, consume_nl_yld acc xr s hl]
        rw [consume_nl_yld acc xr s hl] at h
        have h2 : (consume [] xr).2.2 = true := h
        rw [ih [] ys h2]
      · rw [consume_nl_done acc (xr ++ ys) hl, consume_nl_done acc xr hl]
    · rw [consume_cons_ne acc (xr ++ ys) c hc, consume_cons_ne acc xr c hc]
      rw [consume_cons_ne acc xr c hc] at h
      exact ih (c :: acc) ys h

/-- If the scan of `xs` ended without `[DONE]` and leftover `lf`, the scan of
`xs ++ ys` continues into `ys` with `lf` as the pending line. -/
theorem consume_append_cont (xs : List Char) :
    ∀ (acc ys lf : List Char) (zs : List (List Char)),
      consume acc xs = (zs, lf, false) →
      consume acc (xs ++ ys) =
        (zs ++ (consume lf.reverse ys).1,
          (consume lf.reverse ys).2.1, (consume lf.reverse ys).2.2) := by
  induction xs with
  | nil =>
    intro acc ys lf zs h
    rw [consume_nil] at h
    simp only [Prod.mk.injEq] at h
    obtain ⟨h1, h2, _⟩ := h
    subst h1; subst h2
    rw [List.nil_append, List.reverse_reverse, List.nil_append]
  | cons c xr ih =>
    intro acc ys lf zs h
    rw [List.cons_append]
    by_cases hc : c = '\n'
    · subst hc
      rcases hl : handleLine acc.reverse with _ | s | _
      · rw [consume_nl_skip acc (xr ++ ys) hl]
        rw [consume_nl_skip acc xr hl] at h
        exact ih [] ys lf zs h
      · rw [consume_nl_yld acc (xr ++ ys) s hl]
        rw [consume_nl_yld acc xr s hl] at h
        simp only [Prod.mk.injEq] at h
        obtain ⟨h3, h4, h5⟩ := h
        have hxr : consume [] xr = ((consume [] xr).1, lf, false) := by
          rw [← h4, ← h5]
        rw [ih [] ys lf (consume [] xr).1 hxr, ← h3]
        rw [List.cons_append]
      · rw [consume_nl_done acc xr hl] at h
        simp at h
    · rw [consume_cons_ne acc (xr ++ ys) c hc]
      rw [consume_cons_ne acc xr c hc] at h
      exact ih (c :: acc) ys lf zs h

/-- A leftover buffer contains no newline. -/
theorem consume_no_nl (s : List Char) :
    ∀ acc, (∀ c ∈ acc, c ≠ '\n') → (consume acc s).2.2 = false →
      ∀ c ∈ (consume acc s).2.1, c ≠ '\n' := by
  induction s with
  | nil =>
    intro acc hacc _ c hc
    rw [consume_nil] at hc
    exact hacc c (List.mem_reverse.mp hc)
  | cons c r ih =>
    intro acc hacc hd x hx
    by_cases hc : c = '\n'
    · subst hc
      rcases hl : handleLine acc.reverse with _ | s2 | _
      · rw [consume_nl_skip acc r hl] at hd hx
        exact ih [] (by simp) hd x hx
      · rw [consume_nl_yld acc r s2 hl] at hd hx
        have hd2 : (consume [] r).2.2 = false := hd
        have hx2 : x ∈ (consume [] r).2.1 := hx
        exact ih [] (by simp) hd2 x hx2
      · rw [consume_nl_done acc r hl] at hd
        simp at hd
    · rw [consume_cons_ne acc r c hc] at hd hx
      refine ih (c :: acc) ?_ hd x hx
      intro y hy
      rcases List.mem_cons.mp hy with h | h
      · subst h; exact hc
      · exact hacc y h

/-- Feeding the chunks one at a time equals scanning their concatenation. -/
theorem runChunks_eq_consume (cs : List (List Char)) :
    ∀ (b : List Char), (∀ c ∈ b, c ≠ '\n') →
      runChunks b cs = consume b.reverse (concatChunks cs) := by
  induction cs with
  | nil =>
    intro b _
    rw [runChunks, concatChunks, consume_nil, List.reverse_reverse]
  | cons ch rest ih =>
    intro b hb
    have hsplit : consume [] (b ++ ch) = consume b.reverse ch := by
      rw [consume_acc_eq b [] ch hb, List.append_nil]
    rw [runChunks]
    rcases hcon : consume [] (b ++ ch) with ⟨ys, b2, d⟩
    have hcon2 : consume b.reverse ch = (ys, b2, d) := by rw [← hsplit, hcon]
    cases d with
    | true =>
      simp only [if_pos rfl, if_true]
      rw [concatChunks, consume_append_done ch b.reverse (concatChunks rest)
        (by rw [hcon2]), hcon2]
    | false =>
      simp only [Bool.false_eq_true, if_false]
      have hb2 : ∀ c ∈ b2, c ≠ '\n' := by
        have hnl := consume_no_nl (b ++ ch) [] (by simp) (by rw [hcon])
        rw [hcon] at hnl
        exact hnl
      rw [concatChunks, consume_append_cont ch b.reverse (concatChunks rest) b2 ys hcon2,
        ← ih b2 hb2]

theorem jsTrim_eq_nil_all (l : List Char) (h : jsTrim l = []) :
    ∀ x ∈ l, jsWsChar x = true := by
  intro x hx
  rw [jsTrim, List.reverse_eq_nil_iff] at h
  have h2 := List.dropWhile_eq_nil_iff.mp h
  rcases List.mem_append.mp ((List.takeWhile_append_dropWhile (p := jsWsChar) (l := l)) ▸ hx)
    with hm | hm
  · exact List.mem_takeWhile_imp hm
  · exact h2 x (List.mem_reverse.mpr hm)

theorem isPrefixOf_append_self (l p : List Char) : l.isPrefixOf (l ++ p) = true := by
  induction l with
  | nil => simp [List.isPrefixOf]
  | cons a t ih => simp [List.isPrefixOf, ih]

/-- Evaluation of the main-loop line handler on an SSE event line. -/
theorem handleLine_data (p : List Char) :
    handleLine ("data: ".toList ++ p) =
      if jsTrim (stripTrailingNl p) = "[DONE]".toList then .done
      else if jsonTypedEvent (jsTrim (stripTrailingNl p)) then
        .yld (jsTrim (stripTrailingNl p))
      else if jsTrim (stripTrailingNl p) ≠ [] then .yld (stripTrailingNl p)
      else .skip := by
  have h1 : ¬ jsTrim ("data: ".toList ++ p) = [] := by
    intro h
    have := jsTrim_eq_nil_all _ h 'd' (List.mem_append.mpr (Or.inl (by decide)))
    simp [jsWsChar] at this
  have hdrop : ("data: ".toList ++ p).drop 6 = p := by
    have h6 : ("data: ".toList).length = 6 := rfl
    rw [← h6, List.drop_left]
  simp only [handleLine, if_neg h1, isPrefixOf_append_self, if_pos, hdrop]

/-- Scanning a well-formed SSE body yields exactly the expected payloads, with
an empty leftover buffer and the `[DONE]` flag of the body. -/
theorem consume_renderBody (us : List SseUnit) (hwf : wfUnits us) :
    consume [] (renderBody us) = (expectedYields us, [], hasDone us) := by
  induction us with
  | nil => rw [renderBody, consume_nil]; rfl
  | cons u r ih =>
    have hr : wfUnits r := fun x hx => hwf x (List.mem_cons_of_mem _ hx)
    cases u with
    | blankLine =>
      have hb : renderBody (.blankLine :: r) = '\n' :: renderBody r := rfl
      rw [hb, consume_nl_skip [] (renderBody r) rfl, ih hr]
      rfl
    | dataLine p =>
      have hnl : ∀ c ∈ ("data: ".toList ++ p), c ≠ '\n' := by
        intro c hc
        rcases List.mem_append.mp hc with hm | hm
        · have hlit : "data: ".toList = ['d', 'a', 't', 'a', ':', ' '] := rfl
          rw [hlit] at hm
          simp only [List.mem_cons, List.not_mem_nil, or_false] at hm
          rcases hm with rfl | rfl | rfl | rfl | rfl | rfl <;> decide
        · have hall := hwf (.dataLine p) (List.mem_cons_self _ _)
          simp only [unitOk, List.all_eq_true] at hall
          have := hall c hm
          simpa using this
      have hb : renderBody (.dataLine p :: r) =
          ("data: ".toList ++ p) ++ ('\n' :: renderBody r) := by
        rw [renderBody, renderUnit]
        simp
      rw [hb, consume_acc_eq ("data: ".toList ++ p) [] ('\n' :: renderBody r) hnl,
        List.append_nil]
      have hrev : (("data: ".toList ++ p).reverse).reverse = "data: ".toList ++ p :=
        List.reverse_reverse _
      by_cases hdone : jsTrim (stripTrailingNl p) = "[DONE]".toList
      · have hl : handleLine (("data: ".toList ++ p).reverse).reverse = .done := by
          rw [hrev, handleLine_data, if_pos hdone]
        rw [consume_nl_done _ _ hl]
        rw [expectedYields, hasDone, if_pos hdone, if_pos hdone]
      · by_cases hjson : jsonTypedEvent (jsTrim (stripTrailingNl p)) = true
        · have hl : handleLine (("data: ".toList ++ p).reverse).reverse =
              .yld (jsTrim (stripTrailingNl p)) := by
            rw [hrev, handleLine_data, if_neg hdone, if_pos hjson]
          rw [consume_nl_yld _ _ _ hl, ih hr]
          rw [expectedYields, hasDone, if_neg hdone, if_neg hdone, if_pos hjson]
        · by_cases hne : jsTrim (stripTrailingNl p) = []
          · have hl : handleLine (("data: ".toList ++ p).reverse).reverse = .skip := by
              rw [hrev, handleLine_data, if_neg hdone, if_neg hjson, if_neg (by simp [hne])]
            rw [consume_nl_skip _ _ hl, ih hr]
            rw [expectedYields, hasDone, if_neg hdone, if_neg hdone, if_neg hjson,
              if_neg (by simp [hne])]
          · have hl : handleLine (("data: ".toList ++ p).reverse).reverse =
                .yld (stripTrailingNl p) := by
              rw [hrev, handleLine_data, if_neg hdone, if_neg hjson, if_pos hne]
            rw [consume_nl_yld _ _ _ hl, ih hr]
            rw [expectedYields, hasDone, if_neg hdone, if_neg hdone, if_neg hjson,
              if_pos hne]

/-- C3 (amended).  For every well-formed SSE body made of `data: <payload>`
lines and blank lines, and for every way the body is split into network
chunks, `streamChatMessage` yields exactly the per-payload outcomes in order:
payloads before the first `[DONE]` are yielded once each with the 6-character
`data: ` prefix removed and trailing CR/LF stripped — except payloads whose
trimmed form is a recognised JSON event (`type` of citations/metrics/
usage_info), which are yielded trimmed; blank-trim payloads, non-`data: `
lines, and everything after `[DONE]` are never yielded. -/
theorem sse_payload_extraction (us : List SseUnit) (cs : List (List Char))
    (hwf : wfUnits us) (hcs : concatChunks cs = renderBody us) :
    streamChatYields cs = expectedYields us := by
  have h1 : runChunks [] cs = consume [] (concatChunks cs) := by
    have h := runChunks_eq_consume cs [] (by simp)
    simpa using h
  have h2 : runChunks [] cs = (expectedYields us, [], hasDone us) := by
    rw [h1, hcs, consume_renderBody us hwf]
  have h3 : flushBuffer [] = [] := rfl
  simp only [streamChatYields, h2]
  cases hd : hasDone us
  · simp [h3]
  · simp

/-- Witness for C3 (amended) at a concrete three-chunk split of a body with
two payloads and a terminal `[DONE]`. -/
theorem sse_payload_extraction_witness :
    wfUnits [SseUnit.dataLine "Bonjour".toList, SseUnit.blankLine,
        SseUnit.dataLine "suite: alinea 2".toList, SseUnit.dataLine "[DONE]".toList] ∧
      concatChunks ["data: Bon".toList, "jour\n\ndata: sui".toList,
          "te: alinea 2\ndata: [DONE]\n".toList] =
        renderBody [SseUnit.dataLine "Bonjour".toList, SseUnit.blankLine,
          SseUnit.dataLine "suite: alinea 2".toList, SseUnit.dataLine "[DONE]".toList] ∧
      streamChatYields ["data: Bon".toList, "jour\n\ndata: sui".toList,
          "te: alinea 2\ndata: [DONE]\n".toList] =
        expectedYields [SseUnit.dataLine "Bonjour".toList, SseUnit.blankLine,
          SseUnit.dataLine "suite: alinea 2".toList, SseUnit.dataLine "[DONE]".toList] :=
  ⟨by unfold wfUnits; decide, by decide,
    sse_payload_extraction _ _ (by unfold wfUnits; decide) (by decide)⟩

/-! ### The chunk filter of `handleSend` (src/components/ChatInterface.tsx)

For every chunk yielded by `streamChatMessage`, `handleSend` first attempts
`JSON.parse` (handling `citations`/`metrics` events and `continue`-ing), then
discards chunks that merely *look* like JSON (trimmed form starts with a brace
and contains one of eight quoted keys), discards `[DONE]`, strips a `data: `
prefix, and accumulates the rest into the displayed answer. -/

/-- Substring test (`String.prototype.includes`). -/
def isSubstr (n : List Char) : List Char → Bool
  | [] => n.isEmpty
  | c :: r => n.isPrefixOf (c :: r) || isSubstr n r

/-- The `looksLikeJson` test of `handleSend`, applied to the trimmed chunk. -/
def looksLikeJson (t : List Char) : Bool :=
  (['\x7b'] : List Char).isPrefixOf t &&
    (isSubstr "\"type\"".toList t || isSubstr "\"citations\"".toList t ||
      isSubstr "\"metrics\"".toList t || isSubstr "\"tokens_used\"".toList t ||
      isSubstr "\"cost\"".toList t || isSubstr "\"data\"".toList t ||
      isSubstr "\"id\"".toList t || isSubstr "\"source\"".toList t)

/-- Whether the chunk parses as a JSON object with `type` of `citations` or
`metrics` and a truthy `data` member (the two handled-and-skipped branches). -/
def parsedStructEvent (s : List Char) : Bool :=
  match jsonParse s with
  | some j =>
    (match getField j "type".toList with
     | some (.str t) => t = "citations".toList || t = "metrics".toList
     | _ => false) &&
    (match getField j "data".toList with
     | some d => jsTruthy d
     | none => false)
  | none => false

/-- The contribution of one streamed chunk to the accumulated answer
(`streamedContent`): empty when the chunk is consumed or discarded. -/
def handleSendContrib (chunk : List Char) : List Char :=
  let cfp0 := jsTrim chunk
  let cfp := if "data: ".toList.isPrefixOf cfp0 then jsTrim (cfp0.drop 6) else cfp0
  if parsedStructEvent cfp then []
  else if looksLikeJson (jsTrim chunk) then []
  else if jsTrim chunk = "[DONE]".toList then []
  else
    let clean := if "data: ".toList.isPrefixOf chunk then chunk.drop 6 else chunk
    if jsTrim clean = [] then [] else clean

/-- The accumulated `streamedContent` over all chunks. -/
def handleSendAccum : List (List Char) → List Char
  | [] => []
  | c :: r => handleSendContrib c ++ handleSendAccum r

/-- C10.  JSON-lookalike text chunks are silently dropped: every chunk whose
trimmed form starts with a brace and contains one of the eight quoted keys
contributes nothing to the accumulated answer, wherever it occurs in the
stream. -/
theorem json_lookalike_dropped (chunk : List Char)
    (h : looksLikeJson (jsTrim chunk) = true) :
    handleSendContrib chunk = [] ∧
      ∀ pre post : List (List Char),
        handleSendAccum (pre ++ chunk :: post) = handleSendAccum (pre ++ post) := by
  have hc : handleSendContrib chunk = [] := by
    rw [handleSendContrib]
    by_cases hp : parsedStructEvent
        (if "data: ".toList.isPrefixOf (jsTrim chunk) then
          jsTrim ((jsTrim chunk).drop 6) else jsTrim chunk) = true
    · simp only [hp, if_pos]
    · simp only [if_neg hp, h, if_pos]
  refine ⟨hc, ?_⟩
  intro pre post
  induction pre with
  | nil => rw [List.nil_append, List.nil_append, handleSendAccum, hc, List.nil_append]
  | cons q qr ih => rw [List.cons_append, List.cons_append, handleSendAccum,
      handleSendAccum, ih]

/-- Witness for C10: a partial-JSON chunk carrying a quoted `cost` key. -/
theorem json_lookalike_dropped_witness :
    looksLikeJson (jsTrim "\x7b\"cost\": 0.0021, \"tokens_used\"".toList) = true ∧
      handleSendContrib "\x7b\"cost\": 0.0021, \"tokens_used\"".toList = [] ∧
      handleSendAccum (["Bonjour ".toList] ++
          "\x7b\"cost\": 0.0021, \"tokens_used\"".toList :: ["monde".toList]) =
        handleSendAccum (["Bonjour ".toList] ++ ["monde".toList]) :=
  ⟨by decide,
    (json_lookalike_dropped _ (by decide)).1,
    (json_lookalike_dropped _ (by decide)).2 ["Bonjour ".toList] ["monde".toList]⟩

/-! ### Stream start failure in `streamChatMessage` (C9)

Before any value is yielded the source checks `response.ok` (throwing
`new Error(error.detail || 'Failed to stream message')` after
`await response.json()`) and then `response.body` (throwing
`new Error('No response body')`).  An unparseable error body makes
`response.json()` itself reject with a `SyntaxError`, which propagates
instead of the default message. -/

structure HttpResp where
  ok : Bool
  errorBody : List Char
  body : Option (List (List Char))

/-- What a failed start throws: a constructed `Error` message, or the
`SyntaxError` escaping from `response.json()`. -/
inductive JsThrown where
  | errorMsg (msg : List Char)
  | jsonSyntaxErr
deriving DecidableEq

/-- The value thrown on a non-ok response. -/
def streamStartError (raw : List Char) : JsThrown :=
  match jsonParse raw with
  | none => .jsonSyntaxErr
  | some j =>
    match getField j "detail".toList with
    | some d =>
      if jsTruthy d then .errorMsg (jsToStr d)
      else .errorMsg "Failed to stream message".toList
    | none => .errorMsg "Failed to stream message".toList

/-- The start of `streamChatMessage`: either a throw before any yield, or the
stream of yielded values. -/
def streamChatMessageStart (r : HttpResp) : Except JsThrown (List (List Char)) :=
  if r.ok = false then .error (streamStartError r.errorBody)
  else
    match r.body with
    | none => .error (.errorMsg "No response body".toList)
    | some chunks => .ok (streamChatYields chunks)

/-- C9 counterexample.  For a non-ok response whose body `"Internal Server
Error"` is not JSON, the claim predicts the Error message `'Failed to stream
message'`; the code instead lets the `SyntaxError` from `response.json()`
propagate. -/
theorem stream_start_error_counterexample :
    streamChatMessageStart ⟨false, "Internal Server Error".toList, none⟩ =
        .error .jsonSyntaxErr ∧
      JsThrown.jsonSyntaxErr ≠ .errorMsg "Failed to stream message".toList := by
  constructor
  · rfl
  · decide

/-- C9 (amended).  `streamChatMessage` throws if and only if the response
status is not ok or the body is absent, always before yielding anything: on a
non-ok response it throws the parsed body's truthy `detail` (stringified), or
`'Failed to stream message'` when the body parses without one, or the JSON
parse error itself when the body is not JSON; on an ok response without a body
it throws `'No response body'`; otherwise it yields the streamed values. -/
theorem stream_start_failure (r : HttpResp) :
    ((∃ e, streamChatMessageStart r = .error e) ↔ (r.ok = false ∨ r.body = none)) ∧
      (r.ok = false → streamChatMessageStart r = .error (streamStartError r.errorBody)) ∧
      (r.ok = true → r.body = none →
        streamChatMessageStart r = .error (.errorMsg "No response body".toList)) ∧
      (∀ chunks, r.ok = true → r.body = some chunks →
        streamChatMessageStart r = .ok (streamChatYields chunks)) := by
  rcases r with ⟨ok, raw, body⟩
  cases ok with
  | false =>
    refine ⟨⟨fun _ => Or.inl rfl, fun _ => ⟨streamStartError raw, rfl⟩⟩, fun _ => rfl,
      fun h => absurd h (by simp), fun chunks h => absurd h (by simp)⟩
  | true =>
    cases body with
    | none =>
      refine ⟨⟨fun _ => Or.inr rfl, fun _ => ⟨.errorMsg "No response body".toList, rfl⟩⟩,
        fun h => absurd h (by simp), fun _ _ => rfl, fun chunks _ h => by simp at h⟩
    | some chunks =>
      refine ⟨⟨?_, ?_⟩, fun h => absurd h (by simp), fun _ h => by simp at h,
        fun ch _ h => ?_⟩
      · rintro ⟨e, he⟩
        simp only [streamChatMessageStart] at he
        exact absurd he (by simp)
      · rintro (h | h) <;> simp at h
      · simp only [Option.some.injEq] at h
        subst h
        rfl

/-- Witness for C9 (amended) at an ok response with no body. -/
theorem stream_start_failure_witness :
    streamChatMessageStart ⟨true, [], none⟩ =
      .error (.errorMsg "No response body".toList) :=
  (stream_start_failure ⟨true, [], none⟩).2.2.1 rfl rfl

/-! ### Per-document diversity selection (C4) -/

/-- Modelled from the spec: a ranked retrieval candidate (`_apply_diversity`
and the two-pass greedy of §4.8 are not under src/; the README pseudocode at
part_009 is non-executable).  `id` identifies the chunk, `doc` its document. -/
structure RankedChunk where
  id : Nat
  doc : Nat

/-- Number of selected chunks drawn from document `d`. -/
def docCount (sel : List RankedChunk) (d : Nat) : Nat :=
  sel.countP (fun x => x.doc == d)

/-- Modelled from the spec: Pass A (breadth) — iterate candidates in rank
order, take one chunk from each distinct document, stop at the target. -/
def passA (topK : Nat) : List RankedChunk → List RankedChunk → List RankedChunk
  | sel, [] => sel
  | sel, c :: r =>
    if topK ≤ sel.length then sel
    else if sel.any (fun x => x.doc == c.doc) then passA topK sel r
    else passA topK (sel ++ [c]) r

/-- Modelled from the spec: Pass B (depth) — iterate remaining, not-yet-
selected candidates in rank order, take each whose document has fewer than
`MAX_PER_DOC` selections, stop at `TOP_K_RESULTS`. -/
def passB (topK maxPerDoc : Nat) : List RankedChunk → List RankedChunk → List RankedChunk
  | sel, [] => sel
  | sel, c :: r =>
    if topK ≤ sel.length then sel
    else if sel.any (fun x => x.id == c.id) then passB topK maxPerDoc sel r
    else if docCount sel c.doc < maxPerDoc then passB topK maxPerDoc (sel ++ [c]) r
    else passB topK maxPerDoc sel r

/-- Modelled from the spec: default `MAX_PER_DOC`. -/
def MAX_PER_DOC : Nat := 3

/-- Modelled from the spec: default `TOP_K_RESULTS` (`top_k_results: int = 8`). -/
def TOP_K_RESULTS : Nat := 8

/-- Modelled from the spec: the diversity selection when
`enforce_diversity = true`. -/
def selectDiverse (cands : List RankedChunk) : List RankedChunk :=
  passB TOP_K_RESULTS MAX_PER_DOC (passA TOP_K_RESULTS [] cands) cands

theorem passA_invariants (topK : Nat) (cands0 : List RankedChunk)
    (hnd : (cands0.map (fun c => c.id)).Nodup) (cs : List RankedChunk) :
    ∀ (sel : List RankedChunk),
      (∀ x ∈ cs, x ∈ cands0) → (∀ x ∈ sel, x ∈ cands0) →
      ((sel.map (fun c => c.id)).Nodup) →
      (∀ d, docCount sel d ≤ 1) →
      sel.length ≤ topK →
      (∀ x ∈ passA topK sel cs, x ∈ cands0) ∧
        ((passA topK sel cs).map (fun c => c.id)).Nodup ∧
        (∀ d, docCount (passA topK sel cs) d ≤ 1) ∧
        (passA topK sel cs).length ≤ topK := by
  induction cs with
  | nil =>
    intro sel h1 h2 h3 h4 h5
    rw [passA]
    exact ⟨h2, h3, h4, h5⟩
  | cons c r ih =>
    intro sel h1 h2 h3 h4 h5
    rw [passA]
    by_cases hfull : topK ≤ sel.length
    · rw [if_pos hfull]
      exact ⟨h2, h3, h4, h5⟩
    · rw [if_neg hfull]
      by_cases hdoc : sel.any (fun x => x.doc == c.doc) = true
      · rw [if_pos hdoc]
        exact ih sel (fun x hx => h1 x (List.mem_cons_of_mem _ hx)) h2 h3 h4 h5
      · rw [if_neg hdoc]
        have hcmem : c ∈ cands0 := h1 c (List.mem_cons_self _ _)
        have hzero : docCount sel c.doc = 0 := by
          rw [docCount, List.countP_eq_zero]
          intro x hx
          intro hxc
          exact hdoc (List.any_eq_true.mpr ⟨x, hx, hxc⟩)
        apply ih (sel ++ [c])
        · exact fun x hx => h1 x (List.mem_cons_of_mem _ hx)
        · intro x hx
          rcases List.mem_append.mp hx with hm | hm
          · exact h2 x hm
          · rw [List.mem_singleton.mp hm]
            exact hcmem
        · rw [List.map_append, List.nodup_append]
          refine ⟨h3, List.nodup_singleton _, ?_⟩
          intro a ha hb
          simp only [List.map_cons, List.map_nil, List.mem_singleton] at hb
          subst hb
          obtain ⟨x, hx, hxid⟩ := List.mem_map.mp ha
          have hxc : x = c := List.inj_on_of_nodup_map hnd (h2 x hx) hcmem hxid
          subst hxc
          exact hdoc (List.any_eq_true.mpr ⟨x, hx, by simp⟩)
        · intro d
          rw [docCount, List.countP_append]
          by_cases hd : (c.doc == d) = true
          · have hdeq : c.doc = d := by simpa using hd
            have h0 : docCount sel d = 0 := by rw [← hdeq]; exact hzero
            rw [docCount] at h0
            rw [h0]
            simp [List.countP_cons, hd]
          · have : List.countP (fun x => x.doc == d) [c] = 0 := by
              simp [List.countP_cons, hd]
            rw [this]
            simpa [docCount] using h4 d
        · rw [List.length_append, List.length_singleton]
          omega

theorem passB_invariants (topK maxPerDoc : Nat) (cs : List RankedChunk) :
    ∀ (sel : List RankedChunk),
      ((sel.map (fun c => c.id)).Nodup) →
      (∀ d, docCount sel d ≤ maxPerDoc) →
      sel.length ≤ topK →
      ((passB topK maxPerDoc sel cs).map (fun c => c.id)).Nodup ∧
        (∀ d, docCount (passB topK maxPerDoc sel cs) d ≤ maxPerDoc) ∧
        (passB topK maxPerDoc sel cs).length ≤ topK := by
  induction cs with
  | nil =>
    intro sel h3 h4 h5
    rw [passB]
    exact ⟨h3, h4, h5⟩
  | cons c r ih =>
    intro sel h3 h4 h5
    rw [passB]
    by_cases hfull : topK ≤ sel.length
    · rw [if_pos hfull]
      exact ⟨h3, h4, h5⟩
    · rw [if_neg hfull]
      by_cases hid : sel.any (fun x => x.id == c.id) = true
      · rw [if_pos hid]
        exact ih sel h3 h4 h5
      · rw [if_neg hid]
        by_cases hcnt : docCount sel c.doc < maxPerDoc
        · rw [if_pos hcnt]
          apply ih (sel ++ [c])
          · rw [List.map_append, List.nodup_append]
            refine ⟨h3, List.nodup_singleton _, ?_⟩
            intro a ha hb
            simp only [List.map_cons, List.map_nil, List.mem_singleton] at hb
            subst hb
            obtain ⟨x, hx, hxid⟩ := List.mem_map.mp ha
            exact hid (List.any_eq_true.mpr ⟨x, hx, by simp [hxid]⟩)
          · intro d
            rw [docCount, List.countP_append]
            by_cases hd : (c.doc == d) = true
            · have hdeq : c.doc = d := by simpa using hd
              have hlt : docCount sel d < maxPerDoc := by rw [← hdeq]; exact hcnt
              rw [docCount] at hlt
              simp only [List.countP_cons, List.countP_nil, hd, if_pos]
              omega
            · have hz : List.countP (fun x => x.doc == d) [c] = 0 := by
                simp [List.countP_cons, hd]
              rw [hz]
              simpa [docCount] using h4 d
          · rw [List.length_append, List.length_singleton]
            omega
        · rw [if_neg hcnt]
          exact ih sel h3 h4 h5

/-- C4.  When `enforce_diversity` is true the two-pass greedy (Pass A: one
chunk per distinct document in rank order; Pass B: remaining not-yet-selected
candidates whose document is below `MAX_PER_DOC`; stop at `TOP_K_RESULTS`)
never selects a candidate twice and lets no document contribute more than
`MAX_PER_DOC` chunks. -/
theorem diversity_two_pass (cands : List RankedChunk)
    (h : (cands.map (fun c => c.id)).Nodup) :
    ((selectDiverse cands).map (fun c => c.id)).Nodup ∧
      (∀ d, docCount (selectDiverse cands) d ≤ MAX_PER_DOC) ∧
      (selectDiverse cands).length ≤ TOP_K_RESULTS := by
  have hA := passA_invariants TOP_K_RESULTS cands h cands []
    (fun x hx => hx) (fun x hx => absurd hx (List.not_mem_nil x))
    (by simp) (fun d => by simp [docCount]) (by simp)
  have hB := passB_invariants TOP_K_RESULTS MAX_PER_DOC cands
    (passA TOP_K_RESULTS [] cands) hA.2.1
    (fun d => le_trans (hA.2.2.1 d) (by decide)) hA.2.2.2
  exact ⟨hB.1, hB.2.1, hB.2.2⟩

/-- Witness for C4 at four concrete candidates over two documents. -/
theorem diversity_two_pass_witness :
    (([RankedChunk.mk 1 10, RankedChunk.mk 2 10, RankedChunk.mk 3 11,
        RankedChunk.mk 4 10].map (fun c => c.id)).Nodup) ∧
      ((selectDiverse [RankedChunk.mk 1 10, RankedChunk.mk 2 10, RankedChunk.mk 3 11,
          RankedChunk.mk 4 10]).map (fun c => c.id)).Nodup ∧
      (selectDiverse [RankedChunk.mk 1 10, RankedChunk.mk 2 10, RankedChunk.mk 3 11,
          RankedChunk.mk 4 10]).length ≤ TOP_K_RESULTS :=
  ⟨by decide,
    (diversity_two_pass _ (by decide)).1,
    (diversity_two_pass _ (by decide)).2.2⟩

/-! ### Chunker separator hierarchy (C5) -/

/-- Modelled from the spec: the recursive splitter's ordered separator list,
descending in semantic strength (the backend chunker itself is not under
src/; the README snippets show abridged lists from older commits). -/
def separators : List String :=
  ["\n\n\n", "\nARTICLE ", "\nSection ", "\nChapitre ", "\n\n", "\n",
    ". ", "! ", "? ", "; ", ", ", " ", ""]

/-- Modelled from the spec: recursive splitting — a piece already under
`chunkSize` tokens is kept whole; an oversize piece is split on the current
separator and the fragments are re-split with the remaining, lower-strength
separators. -/
def splitRecursive (tokens : String → Nat) (chunkSize : Nat) :
    List String → String → List String
  | [], t => [t]
  | sep :: rest, t =>
    if tokens t ≤ chunkSize then [t]
    else (t.splitOn sep).flatMap (splitRecursive tokens chunkSize rest)

/-- C5.  The splitter uses exactly the thirteen separators in descending
semantic strength, and a piece is split at a level only when its token count
still exceeds `chunk_size_tokens` — a small-enough piece is returned whole at
every level. -/
theorem chunker_separator_hierarchy :
    separators = ["\n\n\n", "\nARTICLE ", "\nSection ", "\nChapitre ", "\n\n", "\n",
        ". ", "! ", "? ", "; ", ", ", " ", ""] ∧
      ∀ (tokens : String → Nat) (chunkSize : Nat) (seps : List String) (t : String),
        tokens t ≤ chunkSize → splitRecursive tokens chunkSize seps t = [t] := by
  refine ⟨rfl, ?_⟩
  intro tokens chunkSize seps t h
  cases seps with
  | nil => rw [splitRecursive]
  | cons sep rest => rw [splitRecursive, if_pos h]

/-- Witness for C5: a short article heading is kept whole under an 800-token
budget with the full separator list. -/
theorem chunker_separator_hierarchy_witness :
    (fun s : String => s.length / 4) "ARTICLE 92" ≤ 800 ∧
      splitRecursive (fun s : String => s.length / 4) 800 separators "ARTICLE 92" =
        ["ARTICLE 92"] :=
  ⟨by decide,
    chunker_separator_hierarchy.2 (fun s => s.length / 4) 800 separators
      "ARTICLE 92" (by decide)⟩

/-! ### HyDE query-expansion parameters (C6) -/

/-- Modelled from the spec: `temperature=0.7` for the HyDE call. -/
def HYDE_TEMPERATURE : ℚ := 7 / 10

/-- Modelled from the spec: `max_tokens=250` for the HyDE call. -/
def HYDE_MAX_TOKENS : Nat := 250

/-- One request to the LLM short-completion operation `complete_short`. -/
structure LlmCall where
  prompt : List Char
  temperature : ℚ
  maxTokens : Nat

/-- Modelled from the spec: the fixed instructional HyDE prompt around the
user question. -/
def hydePrompt (question : List Char) : List Char :=
  ("Write a 3-4 sentence hypothetical passage, as if excerpted from the kind " ++
    "of regulatory document the system indexes, that would contain the answer " ++
    "to: ").toList ++ question

/-- Modelled from the spec: the query planner's expansion step — call
`complete_short` with the HyDE parameters and embed the returned text, or the
raw question only in the degraded fallback.  Returns the trace of LLM calls
made and the embedded query surface. -/
def planQuery (completeShort : LlmCall → Option (List Char))
    (embed : List Char → List ℚ) (question : List Char) :
    List LlmCall × List ℚ :=
  match completeShort ⟨hydePrompt question, HYDE_TEMPERATURE, HYDE_MAX_TOKENS⟩ with
  | some expanded =>
    ([⟨hydePrompt question, HYDE_TEMPERATURE, HYDE_MAX_TOKENS⟩], embed expanded)
  | none =>
    ([⟨hydePrompt question, HYDE_TEMPERATURE, HYDE_MAX_TOKENS⟩], embed question)

/-- C6.  Every LLM call the planner makes for a question carries temperature
exactly 0.7 and max_tokens exactly 250, and the embedded query surface is the
expansion when the call returns one, the raw question only in the degraded
fallback. -/
theorem hyde_expansion_params (f : LlmCall → Option (List Char))
    (embed : List Char → List ℚ) (q : List Char) :
    (∀ call ∈ (planQuery f embed q).1,
        call.temperature = 7 / 10 ∧ call.maxTokens = 250) ∧
      (planQuery f embed q).2 =
        embed ((f ⟨hydePrompt q, HYDE_TEMPERATURE, HYDE_MAX_TOKENS⟩).getD q) := by
  rcases hf : f ⟨hydePrompt q, HYDE_TEMPERATURE, HYDE_MAX_TOKENS⟩ with _ | e
  · constructor
    · intro call hcall
      simp only [planQuery, hf, List.mem_singleton] at hcall
      subst hcall
      exact ⟨rfl, rfl⟩
    · simp [planQuery, hf]
  · constructor
    · intro call hcall
      simp only [planQuery, hf, List.mem_singleton] at hcall
      subst hcall
      exact ⟨rfl, rfl⟩
    · simp [planQuery, hf]

/-- Witness for C6 with a degraded-fallback gateway and a length embedder. -/
theorem hyde_expansion_params_witness :
    (LlmCall.mk (hydePrompt "CRR".toList) HYDE_TEMPERATURE HYDE_MAX_TOKENS).temperature
        = 7 / 10 ∧
      (LlmCall.mk (hydePrompt "CRR".toList) HYDE_TEMPERATURE HYDE_MAX_TOKENS).maxTokens
        = 250 :=
  (hyde_expansion_params (fun _ => none) (fun l => [(l.length : ℚ)]) "CRR".toList).1
    _ (by simp [planQuery])

/-! ### Rerank score min-max normalization (C7) -/

/-- Batch minimum of the raw cross-encoder scores. -/
def batchMin (s : ℚ) (r : List ℚ) : ℚ := r.foldl min s

/-- Batch maximum of the raw cross-encoder scores. -/
def batchMax (s : ℚ) (r : List ℚ) : ℚ := r.foldl max s

/-- Modelled from the spec: linear min-max normalization of the raw reranker
scores to [0,1] over the batch; in the degenerate batch (max = min) every
chunk receives 1.0.  (The reranker integration itself is not under src/.) -/
def rerankNormalize (scores : List ℚ) : List ℚ :=
  match scores with
  | [] => []
  | s :: r =>
    if batchMax s r = batchMin s r then scores.map (fun _ => 1)
    else scores.map (fun x => (x - batchMin s r) / (batchMax s r - batchMin s r))

theorem batchMin_le_start (r : List ℚ) : ∀ s, batchMin s r ≤ s := by
  induction r with
  | nil => intro s; exact le_refl s
  | cons a t ih =>
    intro s
    exact le_trans (ih (min s a)) (min_le_left s a)

theorem batchMin_le_mem (r : List ℚ) : ∀ s x, x ∈ r → batchMin s r ≤ x := by
  induction r with
  | nil => intro s x hx; exact absurd hx (List.not_mem_nil x)
  | cons a t ih =>
    intro s x hx
    rcases List.mem_cons.mp hx with h | h
    · subst h
      exact le_trans (batchMin_le_start t (min s x)) (min_le_right s x)
    · exact ih (min s a) x h

theorem start_le_batchMax (r : List ℚ) : ∀ s, s ≤ batchMax s r := by
  induction r with
  | nil => intro s; exact le_refl s
  | cons a t ih =>
    intro s
    exact le_trans (le_max_left s a) (ih (max s a))

theorem mem_le_batchMax (r : List ℚ) : ∀ s x, x ∈ r → x ≤ batchMax s r := by
  induction r with
  | nil => intro s x hx; exact absurd hx (List.not_mem_nil x)
  | cons a t ih =>
    intro s x hx
    rcases List.mem_cons.mp hx with h | h
    · subst h
      exact le_trans (le_max_right s x) (start_le_batchMax t (max s x))
    · exact ih (max s a) x h

/-- C7.  Whenever the reranker is available every normalized score equals
(raw − batch min) / (batch max − batch min), so all normalized scores lie in
[0,1]; and in the degenerate batch where max equals min, every chunk receives
score 1.0. -/
theorem rerank_minmax_normalization (scores : List ℚ) :
    (∀ y ∈ rerankNormalize scores, 0 ≤ y ∧ y ≤ 1) ∧
      (∀ s r, scores = s :: r →
        (batchMax s r ≠ batchMin s r →
          rerankNormalize scores =
            scores.map (fun x => (x - batchMin s r) / (batchMax s r - batchMin s r))) ∧
        (batchMax s r = batchMin s r →
          rerankNormalize scores = scores.map (fun _ => 1))) := by
  constructor
  · intro y hy
    cases scores with
    | nil => exact absurd hy (by simp [rerankNormalize])
    | cons s r =>
      rw [rerankNormalize] at hy
      by_cases hdeg : batchMax s r = batchMin s r
      · rw [if_pos hdeg] at hy
        obtain ⟨x, _, hxy⟩ := List.mem_map.mp hy
        subst hxy
        norm_num
      · rw [if_neg hdeg] at hy
        obtain ⟨x, hx, hxy⟩ := List.mem_map.mp hy
        subst hxy
        have hmn : batchMin s r ≤ x := by
          rcases List.mem_cons.mp hx with h | h
          · subst h; exact batchMin_le_start r x
          · exact batchMin_le_mem r s x h
        have hmx : x ≤ batchMax s r := by
          rcases List.mem_cons.mp hx with h | h
          · subst h; exact start_le_batchMax r x
          · exact mem_le_batchMax r s x h
        have hlt : batchMin s r < batchMax s r :=
          lt_of_le_of_ne (le_trans (batchMin_le_start r s) (start_le_batchMax r s))
            (fun he => hdeg he.symm)
        have hpos : (0 : ℚ) < batchMax s r - batchMin s r := by linarith
        constructor
        · apply div_nonneg _ (le_of_lt hpos)
          linarith
        · rw [div_le_one hpos]
          linarith
  · intro s r hsr
    subst hsr
    constructor
    · intro hne
      rw [rerankNormalize, if_neg hne]
    · intro heq
      rw [rerankNormalize, if_pos heq]

/-- Witness for C7 at the batch [1/2, 2, 1]. -/
theorem rerank_minmax_normalization_witness :
    ((1 : ℚ) / 3 ∈ rerankNormalize [1 / 2, 2, 1]) ∧
      (0 ≤ (1 : ℚ) / 3 ∧ (1 : ℚ) / 3 ≤ 1) :=
  ⟨by norm_num [rerankNormalize, batchMin, batchMax],
    (rerank_minmax_normalization [1 / 2, 2, 1]).1 (1 / 3)
      (by norm_num [rerankNormalize, batchMin, batchMax])⟩

/-! ### Fixed embedding dimension invariant (C8) -/

/-- Modelled from the spec: `VECTOR_DIM`, the single dimension constant of
the store (`embedding VECTOR(1024)` for the BAAI/bge-m3 model; the schema
and ingestion code are not under src/). -/
def VECTOR_DIM : Nat := 1024

/-- A persisted chunk: content plus its embedding vector. -/
structure StoreChunk where
  content : List Char
  embedding : List ℚ

/-- The vector store state: the persisted chunks. -/
structure VectorStore where
  chunks : List StoreChunk

/-- Modelled from the spec: the store operations — ingestion of new texts,
an ANN query (read-only), and re-ingestion (delete a document's chunks, then
ingest anew). -/
inductive StoreOp where
  | ingest (texts : List (List Char))
  | knnQuery (v : List ℚ)
  | reingest (keep : StoreChunk → Bool) (texts : List (List Char))

def applyOp (embedFn : List Char → List ℚ) : StoreOp → VectorStore → VectorStore
  | .ingest ts, st => ⟨st.chunks ++ ts.map (fun t => ⟨t, embedFn t⟩)⟩
  | .knnQuery _, st => st
  | .reingest keep ts, st => ⟨st.chunks.filter keep ++ ts.map (fun t => ⟨t, embedFn t⟩)⟩

def applyOps (embedFn : List Char → List ℚ) (ops : List StoreOp)
    (st : VectorStore) : VectorStore :=
  ops.foldl (fun acc op => applyOp embedFn op acc) st

/-- C8.  With an embedding service honouring its contract (`embed` returns
`VECTOR_DIM`-dimensional vectors), every chunk persisted in the store has an
embedding of exactly `VECTOR_DIM` dimensions, and every operation — ingestion,
ANN query, re-ingestion — preserves this for the lifetime of the store. -/
theorem embedding_dim_invariant (embedFn : List Char → List ℚ)
    (hf : ∀ t, (embedFn t).length = VECTOR_DIM) (ops : List StoreOp) :
    ∀ (st : VectorStore), (∀ c ∈ st.chunks, c.embedding.length = VECTOR_DIM) →
      ∀ c ∈ (applyOps embedFn ops st).chunks, c.embedding.length = VECTOR_DIM := by
  induction ops with
  | nil => intro st hst c hc; exact hst c hc
  | cons op rest ih =>
    intro st hst
    have hstep : ∀ c ∈ (applyOp embedFn op st).chunks,
        c.embedding.length = VECTOR_DIM := by
      intro c hc
      cases op with
      | ingest ts =>
        rcases List.mem_append.mp hc with hm | hm
        · exact hst c hm
        · obtain ⟨t, _, hteq⟩ := List.mem_map.mp hm
          rw [← hteq]
          exact hf t
      | knnQuery v => exact hst c hc
      | reingest keep ts =>
        rcases List.mem_append.mp hc with hm | hm
        · exact hst c (List.mem_of_mem_filter hm)
        · obtain ⟨t, _, hteq⟩ := List.mem_map.mp hm
          rw [← hteq]
          exact hf t
    exact ih (applyOp embedFn op st) hstep

/-- Witness for C8: ingest one document, query, and re-ingest; the persisted
chunk keeps a 1024-dimensional embedding. -/
theorem embedding_dim_invariant_witness :
    (StoreChunk.mk "doc".toList
        (List.replicate VECTOR_DIM (0 : ℚ))).embedding.length = VECTOR_DIM :=
  embedding_dim_invariant (fun _ => List.replicate VECTOR_DIM (0 : ℚ))
    (fun _ => List.length_replicate _ _)
    [.ingest ["doc".toList], .knnQuery [], .reingest (fun _ => true) []]
    ⟨[]⟩ (fun c hc => absurd hc (List.not_mem_nil c))
    ⟨"doc".toList, List.replicate VECTOR_DIM (0 : ℚ)⟩
    (by simp [applyOps, applyOp])
